import Mathlib

/-!
Verification development for the `codes` package (clawio/codes, file codes.go).

The Go code is embedded shallowly at the byte level: a Go string is a list of
bytes, modelled as `List Nat` with the side condition `ByteStr` (every element
below 256).  The parts of the Go standard library that `codes.go` calls are
embedded as well, faithfully to their sources:

* `net/url.Values` (a map from string to string slice) is modelled as an
  association list with unique keys; `url.ParseQuery`, `Values.Get`,
  `Values.Set` and `Values.Encode` are translated operation by operation.
  Go map iteration order is irrelevant here because `Encode` sorts the keys
  (sort.Strings, byte-wise lexicographic order); with unique keys the sorted
  entry list is unique, so an insertion sort by key is an exact model.
* `url.URL` is modelled with the fields this package touches (Scheme, Host,
  Path, ForceQuery, RawQuery); Opaque, User and Fragment are empty in every
  URL this package renders and are omitted.  `URL.String` is embedded for
  that shape (non-empty scheme and host, absolute path already in escaped
  form), which is exactly the shape of the URLs in the rendering claims.
* Go `sanitizeURL` receives a pointer and assigns `uri.RawQuery` in place,
  returning the same pointer.  Functionally the returned `URL` value is the
  post-call state of the caller-retained URL; `sanitizeURL1` below computes
  that value.  `none` models a nil pointer.
* In `ErrorResponse.Error`, the final `%v` operand is `r.Error` - the method
  value of the `Error` method itself (the method at depth 0 shadows the
  promoted `Err.Error`).  `fmt` renders a non-nil func value as a runtime
  pointer address (`0x` followed by lowercase hex digits); that address is
  nondeterministic at the source level and is passed as the parameter `addr`
  of `errorResponseError`.
-/

namespace Codes

/-- A Go string: a list of bytes. -/
abbrev GoStr := List Nat

/-- Every element is a byte.  Go strings satisfy this by construction. -/
def ByteStr (s : GoStr) : Prop := ∀ c ∈ s, c < 256

instance (s : GoStr) : Decidable (ByteStr s) := by
  unfold ByteStr; infer_instance

/-- UTF-8 encoding of a single code point (used only to turn Lean string
literals into Go byte strings; all literals in this file are ASCII). -/
def utf8Enc (n : Nat) : List Nat :=
  if n < 128 then [n]
  else if n < 2048 then [192 + n / 64, 128 + n % 64]
  else if n < 65536 then [224 + n / 4096, 128 + n / 64 % 64, 128 + n % 64]
  else [240 + n / 262144, 128 + n / 4096 % 64, 128 + n / 64 % 64, 128 + n % 64]

/-- The bytes of a Lean string literal, as a Go string. -/
def strB (s : String) : GoStr := s.data.flatMap (fun c => utf8Enc c.toNat)

/-! ### Code (codes.go lines 9-50) -/

/-- Code is an unsigned 32-bit error code; its numeric value is modelled as a
natural number (no arithmetic is performed on codes in this package, so no
wrap-around can occur). -/
abbrev Code := Nat

def Success : Code := 0
def InvalidToken : Code := 1
def Unauthenticated : Code := 2
def BadAuthenticationData : Code := 3
def BadInputData : Code := 4
def Internal : Code := 5

/-- Code.String (codes.go lines 35-50): the switch has cases for the five
failure codes and a default arm; there is no case for Success. -/
def codeString (c : Code) : GoStr :=
  if c = InvalidToken then strB "Invalid or expired token"
  else if c = Unauthenticated then strB "Unauthenticated request"
  else if c = BadAuthenticationData then strB "Bad authentication data"
  else if c = BadInputData then strB "Bad input data"
  else if c = Internal then strB "Internal error. Please submit a query to the support team"
  else strB "FIXME: this should be a helpful message"

/-! ### Err (codes.go lines 82-100) -/

/-- An Err reports more details on an individual error in an ErrorResponse. -/
structure Err where
  message : GoStr
  code : Code

/-- NewErr (codes.go lines 90-95): if no message is passed, the default code
message is used. -/
def NewErr (c : Code) (msg : GoStr) : Err :=
  if msg = [] then { message := codeString c, code := c }
  else { message := msg, code := c }

/-- Decimal rendering of a natural number, as produced by the fmt verb %d. -/
def natDec (n : Nat) : GoStr := strB (Nat.repr n)

/-- Decimal rendering of a Go int (fmt verb %d). -/
def intDec : Int → GoStr
  | Int.ofNat n => natDec n
  | Int.negSucc n => 45 :: natDec (n + 1)

/-- Err.Error (codes.go lines 98-100): Sprintf with format %d: %s applied to
e.Code and e.Code.String(). -/
def errRender (e : Err) : GoStr :=
  natDec e.code ++ 58 :: 32 :: codeString e.code

/-! ### net/url Values: ParseQuery, Get, Set, Encode -/

/-- url.Values: a map from keys to lists of values.  Keys are unique in every
value of this type that the embedded code constructs. -/
abbrev Values := List (GoStr × List GoStr)

/-- Map lookup v[key] (empty list when the key is absent). -/
def getVals : Values → GoStr → List GoStr
  | [], _ => []
  | (k1, vs) :: rest, k => if k1 = k then vs else getVals rest k

/-- Values.Get: the first value associated with the key, empty string if none. -/
def valuesGet (m : Values) (k : GoStr) : GoStr :=
  match getVals m k with
  | [] => []
  | v :: _ => v

/-- m[key] = append(m[key], value): append one value under a key, creating the
entry if absent (new keys go to the end; order is irrelevant because Encode
sorts). -/
def addVal : Values → GoStr → GoStr → Values
  | [], k, v => [(k, [v])]
  | (k1, vs) :: rest, k, v =>
    if k1 = k then (k1, vs ++ [v]) :: rest else (k1, vs) :: addVal rest k v

/-- Values.Set: m[key] = []string with the single given value. -/
def setVal : Values → GoStr → GoStr → Values
  | [], k, v => [(k, [v])]
  | (k1, vs) :: rest, k, v =>
    if k1 = k then (k1, [v]) :: rest else (k1, vs) :: setVal rest k v

/-- ishex (net/url). -/
def isHexB (c : Nat) : Bool :=
  (48 ≤ c && c ≤ 57) || (65 ≤ c && c ≤ 70) || (97 ≤ c && c ≤ 102)

/-- unhex (net/url). -/
def hexVal (c : Nat) : Nat :=
  if 48 ≤ c ∧ c ≤ 57 then c - 48
  else if 65 ≤ c ∧ c ≤ 70 then c - 65 + 10
  else if 97 ≤ c ∧ c ≤ 102 then c - 97 + 10
  else 0

/-- QueryUnescape (net/url, mode encodeQueryComponent): %XX decodes a byte and
needs two hex digits, + decodes to space, anything else is literal; a bad or
truncated escape is an error (`none`). -/
def queryUnescape : GoStr → Option GoStr
  | [] => some []
  | c :: rest =>
    if c = 37 then
      match rest with
      | a :: b :: rest2 =>
        if isHexB a && isHexB b then
          Option.map (fun r => (hexVal a * 16 + hexVal b) :: r) (queryUnescape rest2)
        else none
      | _ => none
    else if c = 43 then Option.map (fun r => 32 :: r) (queryUnescape rest)
    else Option.map (fun r => c :: r) (queryUnescape rest)

/-- shouldEscape(c, encodeQueryComponent) is false exactly for the unreserved
bytes: ASCII alphanumerics and dash, underscore, dot, tilde. -/
def isUnreserved (c : Nat) : Bool :=
  (97 ≤ c && c ≤ 122) || (65 ≤ c && c ≤ 90) || (48 ≤ c && c ≤ 57) ||
    c = 45 || c = 95 || c = 46 || c = 126

/-- upperhex digit of a nibble. -/
def hexDigitU (n : Nat) : Nat := if n < 10 then 48 + n else 55 + n

/-- QueryEscape (net/url): unreserved bytes pass through, space becomes +,
every other byte becomes %XX with uppercase hex. -/
def queryEscape : GoStr → GoStr
  | [] => []
  | c :: rest =>
    (if isUnreserved c then [c]
     else if c = 32 then [43]
     else [37, hexDigitU (c / 16 % 16), hexDigitU (c % 16)]) ++ queryEscape rest

/-- strings.Cut at the first occurrence of byte b: (before, after); when b does
not occur, after is empty - exactly Go Cut with the found flag dropped, which
is how parseQuery uses it. -/
def cutByte (b : Nat) : GoStr → GoStr × GoStr
  | [] => ([], [])
  | c :: rest =>
    if c = b then ([], rest)
    else
      let p := cutByte b rest
      (c :: p.1, p.2)

/-- Split a byte string at every ampersand (separator consumed).  This is the
splitOn semantics: it yields one piece more than Go's cut loop when the input
is empty or ends in an ampersand, but that extra piece is empty and the
per-segment processing of parseQuery skips empty segments, so folding the
segment step over these pieces is observationally Go's loop. -/
def splitAmpCore : GoStr → GoStr → List GoStr
  | [], acc => [acc.reverse]
  | c :: rest, acc =>
    if c = 38 then acc.reverse :: splitAmpCore rest []
    else splitAmpCore rest (c :: acc)

/-- One iteration of the parseQuery loop body on a segment: segments containing
a semicolon are an error and are skipped, empty segments are skipped, the
segment is cut at the first =, both sides are query-unescaped (an error skips
the segment), and the pair is added to the map. -/
def parseSeg (m : Values) (seg : GoStr) : Values :=
  if 59 ∈ seg then m
  else if seg = [] then m
  else
    match queryUnescape (cutByte 61 seg).1 with
    | none => m
    | some k =>
      match queryUnescape (cutByte 61 seg).2 with
      | none => m
      | some v => addVal m k v

/-- url.ParseQuery with the error dropped, which is what URL.Query() does. -/
def parseQueryV (q : GoStr) : Values :=
  List.foldl parseSeg [] (splitAmpCore q [])

/-- Byte-wise lexicographic string order, as used by sort.Strings. -/
def leB : GoStr → GoStr → Bool
  | [], _ => true
  | _ :: _, [] => false
  | a :: as, b :: bs => if a < b then true else if b < a then false else leB as bs

/-- Insert an entry into an entry list sorted by key. -/
def insertSorted (e : GoStr × List GoStr) : Values → Values
  | [] => [e]
  | f :: rest => if leB e.1 f.1 then e :: f :: rest else f :: insertSorted e rest

/-- Sort the entries by key (model of the sorted-keys iteration of
Values.Encode; with unique keys the sorted entry list is unique, so the
choice of sorting algorithm is immaterial). -/
def sortV : Values → Values
  | [] => []
  | e :: rest => insertSorted e (sortV rest)

/-- The encoded k=v segments of one entry, in value order. -/
def encodeEntry (e : GoStr × List GoStr) : List GoStr :=
  e.2.map (fun v => queryEscape e.1 ++ 61 :: queryEscape v)

/-- Join segments with ampersands (Values.Encode writes & before every segment
except the first). -/
def joinAmp : List GoStr → GoStr
  | [] => []
  | [s] => s
  | s :: t :: r => s ++ 38 :: joinAmp (t :: r)

/-- Values.Encode: keys in sorted order, each value of a key as an escaped
k=v segment, segments joined with ampersands. -/
def encodeV (m : Values) : GoStr :=
  joinAmp (List.flatMap (sortV m) encodeEntry)

/-! ### url.URL and sanitizeURL (codes.go lines 102-114) -/

/-- url.URL restricted to the fields this package reads or writes. -/
structure URL where
  scheme : GoStr
  host : GoStr
  path : GoStr
  forceQuery : Bool
  rawQuery : GoStr
  deriving DecidableEq

def tokenKey : GoStr := strB "token"

def REDACTED : GoStr := strB "REDACTED"

/-- sanitizeURL on a non-nil URL (codes.go lines 108-113).  Go assigns
uri.RawQuery in place and returns the argument pointer, so this value is both
the returned URL and the post-call state of the caller-retained URL. -/
def sanitizeURL1 (u : URL) : URL :=
  if 0 < (valuesGet (parseQueryV u.rawQuery) tokenKey).length then
    { u with rawQuery := encodeV (setVal (parseQueryV u.rawQuery) tokenKey REDACTED) }
  else u

/-- sanitizeURL (codes.go lines 104-114); `none` models a nil *url.URL. -/
def sanitizeURL : Option URL → Option URL
  | none => none
  | some u => some (sanitizeURL1 u)

/-- URL.String for the URL shape rendered by this package: non-empty scheme
and host, empty Opaque, User and Fragment, path already in escaped form. -/
def urlString (u : URL) : GoStr :=
  u.scheme ++ 58 :: 47 :: 47 :: u.host ++ u.path ++
    (if u.forceQuery || u.rawQuery ≠ [] then 63 :: u.rawQuery else [])

/-- fmt %v of a *url.URL: String() on a non-nil pointer, the literal nil text
otherwise. -/
def urlVerb : Option URL → GoStr
  | none => strB "<nil>"
  | some u => urlString u

/-! ### Response and ErrorResponse (codes.go lines 52-80) -/

/-- http.Request restricted to the fields this package reads; `none` models a
nil *url.URL. -/
structure Request where
  method : GoStr
  url : Option URL

/-- http.Response restricted to the fields this package reads; `none` models a
nil *http.Request. -/
structure HttpResponse where
  request : Option Request
  statusCode : Int

/-- Response (codes.go lines 55-63) wraps the transport response. -/
structure Response where
  response : Option HttpResponse

/-- NewResponse (codes.go lines 60-63). -/
def NewResponse (r : Option HttpResponse) : Response := { response := r }

/-- An ErrorResponse reports one or more errors caused by an API request;
`none` components model nil pointers. -/
structure ErrorResponse where
  response : Option HttpResponse
  err : Option Err

/-- NewErrorResponse (codes.go lines 71-74). -/
def NewErrorResponse (res : Option HttpResponse) (e : Option Err) : ErrorResponse :=
  { response := res, err := e }

/-- ErrorResponse.Error (codes.go lines 76-80): Sprintf with format
%v %v: %d %v on r.Response.Request.Method, sanitizeURL of the request URL,
r.Response.StatusCode, and r.Error.  The last operand is the method value of
the Error method itself, not the embedded Err, and fmt renders that non-nil
func value as a runtime pointer address, passed here as `addr`.  The result is
`none` when a nil Response or Request would make the field accesses panic. -/
def errorResponseError (addr : GoStr) (r : ErrorResponse) : Option GoStr :=
  match r.response with
  | none => none
  | some resp =>
    match resp.request with
    | none => none
    | some req =>
      some (req.method ++ 32 ::
        (urlVerb (sanitizeURL req.url) ++ 58 :: 32 ::
          (intDec resp.statusCode ++ 32 :: addr)))

/-! ### Helper lemmas: escaping -/

theorem hexDigitU_avoid (n : Nat) : hexDigitU n ≠ 38 ∧ hexDigitU n ≠ 59 ∧ hexDigitU n ≠ 61 := by
  unfold hexDigitU; split <;> omega

theorem isHexB_hexDigitU {n : Nat} (h : n < 16) : isHexB (hexDigitU n) = true := by
  unfold hexDigitU
  by_cases h10 : n < 10
  · rw [if_pos h10]; simp only [isHexB, Bool.or_eq_true, Bool.and_eq_true, decide_eq_true_eq]
    omega
  · rw [if_neg h10]; simp only [isHexB, Bool.or_eq_true, Bool.and_eq_true, decide_eq_true_eq]
    omega

theorem hexVal_hexDigitU {n : Nat} (h : n < 16) : hexVal (hexDigitU n) = n := by
  unfold hexDigitU
  by_cases h10 : n < 10
  · rw [if_pos h10]; unfold hexVal; rw [if_pos (by omega)]; omega
  · rw [if_neg h10]; unfold hexVal; rw [if_neg (by omega), if_pos (by omega)]; omega

theorem hexVal_lt (c : Nat) : hexVal c < 16 := by
  unfold hexVal; split
  · omega
  · split
    · omega
    · split <;> omega

theorem mem_queryEscape {s : GoStr} {c : Nat} (h : c ∈ queryEscape s) :
    c ≠ 38 ∧ c ≠ 59 ∧ c ≠ 61 := by
  induction s with
  | nil => simp [queryEscape] at h
  | cons a rest ih =>
    rw [queryEscape, List.mem_append] at h
    rcases h with h | h
    · split at h
      · next hu =>
        simp only [List.mem_singleton] at h
        subst h
        simp only [isUnreserved, Bool.or_eq_true, Bool.and_eq_true, decide_eq_true_eq] at hu
        omega
      · split at h
        · simp only [List.mem_singleton] at h; omega
        · simp only [List.mem_cons, List.mem_singleton, List.not_mem_nil, or_false] at h
          rcases h with h | h | h
          · omega
          · exact h ▸ hexDigitU_avoid _
          · exact h ▸ hexDigitU_avoid _
    · exact ih h

theorem isUnreserved_byte {c : Nat} (h : isUnreserved c = true) : c < 256 := by
  simp only [isUnreserved, Bool.or_eq_true, Bool.and_eq_true, decide_eq_true_eq] at h
  omega

theorem qU_pct (x y : Nat) (z : GoStr) :
    queryUnescape (37 :: x :: y :: z) =
      if isHexB x && isHexB y then
        Option.map (fun r => (hexVal x * 16 + hexVal y) :: r) (queryUnescape z)
      else none := rfl

theorem qU_pct_one (x : Nat) : queryUnescape [37, x] = none := rfl

theorem qU_pct_nil : queryUnescape [37] = none := rfl

theorem qU_step (c : Nat) (z : GoStr) :
    queryUnescape (c :: z) =
      if c = 37 then
        match z with
        | a :: b :: rest2 =>
          if isHexB a && isHexB b then
            Option.map (fun r => (hexVal a * 16 + hexVal b) :: r) (queryUnescape rest2)
          else none
        | _ => none
      else if c = 43 then Option.map (fun r => 32 :: r) (queryUnescape z)
      else Option.map (fun r => c :: r) (queryUnescape z) := by
  conv_lhs => rw [queryUnescape.eq_def]
  rfl

theorem qU_plus (z : GoStr) :
    queryUnescape (43 :: z) = Option.map (fun r => 32 :: r) (queryUnescape z) := by
  rw [qU_step, if_neg (by omega), if_pos rfl]

theorem qU_lit {c : Nat} (z : GoStr) (h37 : c ≠ 37) (h43 : c ≠ 43) :
    queryUnescape (c :: z) = Option.map (fun r => c :: r) (queryUnescape z) := by
  rw [qU_step, if_neg h37, if_neg h43]

theorem unescape_escape {s : GoStr} (hb : ByteStr s) :
    queryUnescape (queryEscape s) = some s := by
  induction s with
  | nil => rfl
  | cons a rest ih =>
    have ha : a < 256 := hb a (List.mem_cons_self a rest)
    have hrest : ByteStr rest := fun c hc => hb c (List.mem_cons_of_mem a hc)
    rw [queryEscape]
    split
    · next hu =>
      have h37 : a ≠ 37 := by intro h; rw [h] at hu; simp [isUnreserved] at hu
      have h43 : a ≠ 43 := by intro h; rw [h] at hu; simp [isUnreserved] at hu
      rw [List.singleton_append, qU_lit (queryEscape rest) h37 h43, ih hrest]
      rfl
    · split
      · next ha32 =>
        subst ha32
        rw [List.singleton_append, qU_plus, ih hrest]
        rfl
      · have h1 : a / 16 % 16 < 16 := Nat.mod_lt _ (by omega)
        have h2 : a % 16 < 16 := Nat.mod_lt _ (by omega)
        simp only [List.cons_append, List.nil_append]
        rw [qU_pct, if_pos (by rw [isHexB_hexDigitU h1, isHexB_hexDigitU h2]; rfl),
          hexVal_hexDigitU h1, hexVal_hexDigitU h2, ih hrest]
        have harith : a / 16 % 16 * 16 + a % 16 = a := by omega
        rw [show Option.map (fun r => (a / 16 % 16 * 16 + a % 16) :: r) (some rest) =
          some ((a / 16 % 16 * 16 + a % 16) :: rest) from rfl, harith]

theorem queryUnescape_byte {s t : GoStr} (hb : ByteStr s) (h : queryUnescape s = some t) :
    ByteStr t := by
  have H : ∀ n (s : GoStr), s.length ≤ n → ByteStr s →
      ∀ t, queryUnescape s = some t → ByteStr t := by
    intro n
    induction n with
    | zero =>
      intro s hl hbs t hs
      match s, hl with
      | [], _ =>
        cases hs
        intro c hc; cases hc
    | succ n ihn =>
      intro s hl hbs t hs
      match s with
      | [] =>
        cases hs
        intro c hc; cases hc
      | c :: z =>
        have hc256 : c < 256 := hbs c (List.mem_cons_self c z)
        have hbz : ByteStr z := fun d hd => hbs d (List.mem_cons_of_mem c hd)
        by_cases h37 : c = 37
        · subst h37
          match z, hs with
          | [], hs => cases hs
          | [x], hs => rw [qU_pct_one] at hs; cases hs
          | x :: y :: z2, hs =>
            rw [qU_pct] at hs
            split at hs
            · cases hq : queryUnescape z2 with
              | none => rw [hq] at hs; cases hs
              | some t2 =>
                rw [hq] at hs
                cases hs
                have hbz2 : ByteStr z2 := fun d hd =>
                  hbz d (List.mem_cons_of_mem x (List.mem_cons_of_mem y hd))
                have ht2 : ByteStr t2 :=
                  ihn z2 (by simp at hl ⊢; omega) hbz2 t2 hq
                intro d hd
                rcases List.mem_cons.mp hd with hd | hd
                · have := hexVal_lt x
                  have := hexVal_lt y
                  omega
                · exact ht2 d hd
            · cases hs
        · have step : ∀ (b : Nat), b < 256 →
              queryUnescape (c :: z) = Option.map (fun r => b :: r) (queryUnescape z) →
              ByteStr t := by
            intro b hb256 hunf
            rw [hunf] at hs
            cases hq : queryUnescape z with
            | none => rw [hq] at hs; cases hs
            | some t2 =>
              rw [hq] at hs
              cases hs
              have ht2 : ByteStr t2 := ihn z (by simp at hl ⊢; omega) hbz t2 hq
              intro d hd
              rcases List.mem_cons.mp hd with hd | hd
              · omega
              · exact ht2 d hd
          by_cases h43 : c = 43
          · subst h43
            exact step 32 (by omega) (qU_plus z)
          · exact step c hc256 (qU_lit z h37 h43)
  exact H s.length s (Nat.le_refl _) hb t h

/-! ### Helper lemmas: cutting, splitting and joining -/

theorem cutByte_append {b : Nat} {x : GoStr} (y : GoStr) (hx : b ∉ x) :
    cutByte b (x ++ b :: y) = (x, y) := by
  induction x with
  | nil => simp [cutByte]
  | cons c rest ih =>
    have hc : c ≠ b := fun h => hx (h ▸ List.mem_cons_self c rest)
    have hrest : b ∉ rest := fun h => hx (List.mem_cons_of_mem c h)
    rw [List.cons_append, cutByte, if_neg hc, ih hrest]

theorem mem_cutByte_fst {b c : Nat} {s : GoStr} (h : c ∈ (cutByte b s).1) : c ∈ s := by
  induction s with
  | nil => simp [cutByte] at h
  | cons a rest ih =>
    rw [cutByte] at h
    split at h
    · cases h
    · rcases List.mem_cons.mp h with h | h
      · exact h ▸ List.mem_cons_self a rest
      · exact List.mem_cons_of_mem a (ih h)

theorem mem_cutByte_snd {b c : Nat} {s : GoStr} (h : c ∈ (cutByte b s).2) : c ∈ s := by
  induction s with
  | nil => simp [cutByte] at h
  | cons a rest ih =>
    rw [cutByte] at h
    split at h
    · exact List.mem_cons_of_mem a h
    · exact List.mem_cons_of_mem a (ih h)

theorem splitAmpCore_no38 {s : GoStr} (acc : GoStr) (hs : 38 ∉ s) :
    splitAmpCore s acc = [acc.reverse ++ s] := by
  induction s generalizing acc with
  | nil => simp [splitAmpCore]
  | cons c rest ih =>
    have hc : c ≠ 38 := fun h => hs (h ▸ List.mem_cons_self c rest)
    have hrest : 38 ∉ rest := fun h => hs (List.mem_cons_of_mem c h)
    rw [splitAmpCore, if_neg hc, ih _ hrest]
    simp

theorem splitAmpCore_amp {s : GoStr} (t : GoStr) (acc : GoStr) (hs : 38 ∉ s) :
    splitAmpCore (s ++ 38 :: t) acc = (acc.reverse ++ s) :: splitAmpCore t [] := by
  induction s generalizing acc with
  | nil => simp [splitAmpCore]
  | cons c rest ih =>
    have hc : c ≠ 38 := fun h => hs (h ▸ List.mem_cons_self c rest)
    have hrest : 38 ∉ rest := fun h => hs (List.mem_cons_of_mem c h)
    rw [List.cons_append, splitAmpCore, if_neg hc, ih _ hrest]
    simp

theorem split_join {segs : List GoStr} (hne : segs ≠ [])
    (hfree : ∀ s ∈ segs, 38 ∉ s) : splitAmpCore (joinAmp segs) [] = segs := by
  induction segs with
  | nil => exact absurd rfl hne
  | cons s rest ih =>
    cases rest with
    | nil =>
      rw [joinAmp, splitAmpCore_no38 [] (hfree s (List.mem_cons_self s []))]
      simp
    | cons t r =>
      rw [joinAmp, splitAmpCore_amp _ _ (hfree s (List.mem_cons_self s _))]
      rw [ih (by simp) (fun x hx => hfree x (List.mem_cons_of_mem s hx))]
      simp

theorem mem_splitAmpCore {q acc : GoStr} {s : GoStr} (hs : s ∈ splitAmpCore q acc)
    {c : Nat} (hc : c ∈ s) : c ∈ q ∨ c ∈ acc := by
  induction q generalizing acc with
  | nil =>
    simp only [splitAmpCore, List.mem_singleton] at hs
    subst hs
    exact Or.inr (List.mem_reverse.mp hc)
  | cons a rest ih =>
    rw [splitAmpCore] at hs
    split at hs
    · rcases List.mem_cons.mp hs with h | h
      · exact Or.inr (List.mem_reverse.mp (h ▸ hc))
      · rcases ih h with h2 | h2
        · exact Or.inl (List.mem_cons_of_mem a h2)
        · cases h2
    · rcases ih hs with h2 | h2
      · exact Or.inl (List.mem_cons_of_mem a h2)
      · rcases List.mem_cons.mp h2 with h3 | h3
        · exact Or.inl (h3 ▸ List.mem_cons_self a rest)
        · exact Or.inr h3

/-! ### Helper lemmas: Values as a map -/

/-- The key list of a Values. -/
def keysV (m : Values) : List GoStr := m.map Prod.fst

/-- Well-formedness invariant of every Values the embedded code builds:
unique keys, no empty value list, and all keys and values are byte strings. -/
def WFv (m : Values) : Prop :=
  (keysV m).Nodup ∧ (∀ e ∈ m, e.2 ≠ []) ∧
    (∀ e ∈ m, ByteStr e.1 ∧ ∀ v ∈ e.2, ByteStr v)

theorem getVals_not_mem {m : Values} {k : GoStr} (h : k ∉ keysV m) : getVals m k = [] := by
  induction m with
  | nil => rfl
  | cons e rest ih =>
    match e with
    | (k1, vs) =>
      rw [getVals, if_neg, ih]
      · intro hc
        exact h (List.mem_cons_of_mem _ hc)
      · intro hc
        exact h (hc ▸ List.mem_cons_self _ _)

theorem mem_of_getVals {m : Values} {k : GoStr} (h : k ∈ keysV m) :
    (k, getVals m k) ∈ m := by
  induction m with
  | nil => cases h
  | cons e rest ih =>
    match e with
    | (k1, vs) =>
      by_cases hk : k1 = k
      · subst hk
        rw [getVals, if_pos rfl]
        exact List.mem_cons_self _ _
      · rw [getVals, if_neg hk]
        have : k ∈ keysV rest := by
          rcases List.mem_cons.mp h with h1 | h1
          · exact absurd h1.symm hk
          · exact h1
        exact List.mem_cons_of_mem _ (ih this)

theorem getVals_eq_of_mem {m : Values} {k : GoStr} {vs : List GoStr}
    (hnd : (keysV m).Nodup) (h : (k, vs) ∈ m) : getVals m k = vs := by
  induction m with
  | nil => cases h
  | cons e rest ih =>
    match e with
    | (k1, vs1) =>
      rcases List.mem_cons.mp h with h1 | h1
      · cases h1
        rw [getVals, if_pos rfl]
      · by_cases hk : k1 = k
        · subst hk
          exfalso
          have : k1 ∈ keysV rest := List.mem_map_of_mem Prod.fst h1
          exact (List.nodup_cons.mp hnd).1 this
        · rw [getVals, if_neg hk]
          exact ih (List.nodup_cons.mp hnd).2 h1

theorem getVals_perm {m1 m2 : Values} (h : m1.Perm m2) (hnd : (keysV m1).Nodup)
    (k : GoStr) : getVals m1 k = getVals m2 k := by
  have hnd2 : (keysV m2).Nodup := ((h.map Prod.fst).nodup_iff).mp hnd
  by_cases hk : k ∈ keysV m1
  · have h1 := mem_of_getVals hk
    have h2 : (k, getVals m1 k) ∈ m2 := h.mem_iff.mp h1
    exact (getVals_eq_of_mem hnd2 h2).symm
  · have hk2 : k ∉ keysV m2 := fun hc => hk ((h.map Prod.fst).mem_iff.mpr hc)
    rw [getVals_not_mem hk, getVals_not_mem hk2]

theorem getVals_setVal_self (m : Values) (k : GoStr) (v : GoStr) :
    getVals (setVal m k v) k = [v] := by
  induction m with
  | nil => rw [setVal, getVals, if_pos rfl]
  | cons e rest ih =>
    match e with
    | (k1, vs1) =>
      by_cases hk : k1 = k
      · rw [setVal, if_pos hk, getVals, if_pos hk]
      · rw [setVal, if_neg hk, getVals, if_neg hk, ih]

theorem getVals_setVal_other {m : Values} {k k2 : GoStr} (v : GoStr) (h : k2 ≠ k) :
    getVals (setVal m k v) k2 = getVals m k2 := by
  induction m with
  | nil => simp [setVal, getVals, Ne.symm h]
  | cons e rest ih =>
    match e with
    | (k1, vs1) =>
      by_cases hk : k1 = k
      · subst hk
        rw [setVal, if_pos rfl, getVals, if_neg (fun hc => h hc.symm), getVals,
          if_neg (fun hc => h hc.symm)]
      · rw [setVal, if_neg hk, getVals, getVals]
        by_cases hk2 : k1 = k2
        · rw [if_pos hk2, if_pos hk2]
        · rw [if_neg hk2, if_neg hk2, ih]

theorem keysV_setVal (m : Values) (k : GoStr) (v : GoStr) :
    keysV (setVal m k v) = if k ∈ keysV m then keysV m else keysV m ++ [k] := by
  induction m with
  | nil => simp [setVal, keysV]
  | cons e rest ih =>
    match e with
    | (k1, vs1) =>
      by_cases hk : k1 = k
      · subst hk
        rw [setVal, if_pos rfl]
        have : k1 ∈ keysV ((k1, vs1) :: rest) := List.mem_cons_self _ _
        rw [if_pos this]
        rfl
      · rw [setVal, if_neg hk]
        have hcons : keysV ((k1, vs1) :: setVal rest k v) = k1 :: keysV (setVal rest k v) := rfl
        have hcons2 : keysV ((k1, vs1) :: rest) = k1 :: keysV rest := rfl
        rw [hcons, ih, hcons2]
        by_cases hmem : k ∈ keysV rest
        · rw [if_pos hmem, if_pos (List.mem_cons_of_mem _ hmem)]
        · rw [if_neg hmem, if_neg]
          · rfl
          · intro hc
            rcases List.mem_cons.mp hc with h1 | h1
            · exact hk h1.symm
            · exact hmem h1

theorem setVal_self {m : Values} {k : GoStr} {v : GoStr} (hnd : (keysV m).Nodup)
    (h : getVals m k = [v]) : setVal m k v = m := by
  induction m with
  | nil => exact absurd h (by intro hc; cases hc)
  | cons e rest ih =>
    match e with
    | (k1, vs1) =>
      by_cases hk : k1 = k
      · subst hk
        rw [getVals, if_pos rfl] at h
        rw [setVal, if_pos rfl, h]
      · rw [getVals, if_neg hk] at h
        rw [setVal, if_neg hk, ih (List.nodup_cons.mp hnd).2 h]

theorem keysV_addVal (m : Values) (k : GoStr) (v : GoStr) :
    keysV (addVal m k v) = if k ∈ keysV m then keysV m else keysV m ++ [k] := by
  induction m with
  | nil => simp [addVal, keysV]
  | cons e rest ih =>
    match e with
    | (k1, vs1) =>
      by_cases hk : k1 = k
      · subst hk
        rw [addVal, if_pos rfl]
        have : k1 ∈ keysV ((k1, vs1) :: rest) := List.mem_cons_self _ _
        rw [if_pos this]
        rfl
      · rw [addVal, if_neg hk]
        have hcons : keysV ((k1, vs1) :: addVal rest k v) = k1 :: keysV (addVal rest k v) := rfl
        have hcons2 : keysV ((k1, vs1) :: rest) = k1 :: keysV rest := rfl
        rw [hcons, ih, hcons2]
        by_cases hmem : k ∈ keysV rest
        · rw [if_pos hmem, if_pos (List.mem_cons_of_mem _ hmem)]
        · rw [if_neg hmem, if_neg]
          · rfl
          · intro hc
            rcases List.mem_cons.mp hc with h1 | h1
            · exact hk h1.symm
            · exact hmem h1

theorem addVal_not_mem {m : Values} {k : GoStr} (v : GoStr) (h : k ∉ keysV m) :
    addVal m k v = m ++ [(k, [v])] := by
  induction m with
  | nil => rfl
  | cons e rest ih =>
    match e with
    | (k1, vs1) =>
      have hk : k1 ≠ k := fun hc => h (hc ▸ List.mem_cons_self _ _)
      rw [addVal, if_neg hk, List.cons_append, ih (fun hc => h (List.mem_cons_of_mem _ hc))]

theorem addVal_snoc {m : Values} {k : GoStr} (vs : List GoStr) (v : GoStr)
    (h : k ∉ keysV m) : addVal (m ++ [(k, vs)]) k v = m ++ [(k, vs ++ [v])] := by
  induction m with
  | nil => rw [List.nil_append, List.nil_append, addVal, if_pos rfl]
  | cons e rest ih =>
    match e with
    | (k1, vs1) =>
      have hk : k1 ≠ k := fun hc => h (hc ▸ List.mem_cons_self _ _)
      rw [List.cons_append, addVal, if_neg hk, List.cons_append,
        ih (fun hc => h (List.mem_cons_of_mem _ hc))]

/-! ### Helper lemmas: well-formedness of parsed Values -/

theorem mem_addVal {m : Values} {k v : GoStr} {e : GoStr × List GoStr}
    (h : e ∈ addVal m k v) :
    e ∈ m ∨ (∃ vs, (k, vs) ∈ m ∧ e = (k, vs ++ [v])) ∨ e = (k, [v]) := by
  induction m with
  | nil =>
    rcases List.mem_cons.mp h with h1 | h1
    · exact Or.inr (Or.inr h1)
    · cases h1
  | cons f rest ih =>
    match f with
    | (k1, vs1) =>
      by_cases hk : k1 = k
      · subst hk
        rw [addVal, if_pos rfl] at h
        rcases List.mem_cons.mp h with h1 | h1
        · exact Or.inr (Or.inl ⟨vs1, List.mem_cons_self _ _, h1⟩)
        · exact Or.inl (List.mem_cons_of_mem _ h1)
      · rw [addVal, if_neg hk] at h
        rcases List.mem_cons.mp h with h1 | h1
        · exact Or.inl (h1 ▸ List.mem_cons_self _ _)
        · rcases ih h1 with h2 | h2 | h2
          · exact Or.inl (List.mem_cons_of_mem _ h2)
          · rcases h2 with ⟨vs, hvs, he⟩
            exact Or.inr (Or.inl ⟨vs, List.mem_cons_of_mem _ hvs, he⟩)
          · exact Or.inr (Or.inr h2)

theorem mem_setVal {m : Values} {k v : GoStr} {e : GoStr × List GoStr}
    (h : e ∈ setVal m k v) : e ∈ m ∨ e = (k, [v]) := by
  induction m with
  | nil =>
    rcases List.mem_cons.mp h with h1 | h1
    · exact Or.inr h1
    · cases h1
  | cons f rest ih =>
    match f with
    | (k1, vs1) =>
      by_cases hk : k1 = k
      · subst hk
        rw [setVal, if_pos rfl] at h
        rcases List.mem_cons.mp h with h1 | h1
        · exact Or.inr h1
        · exact Or.inl (List.mem_cons_of_mem _ h1)
      · rw [setVal, if_neg hk] at h
        rcases List.mem_cons.mp h with h1 | h1
        · exact Or.inl (h1 ▸ List.mem_cons_self _ _)
        · rcases ih h1 with h2 | h2
          · exact Or.inl (List.mem_cons_of_mem _ h2)
          · exact Or.inr h2

theorem nodup_keys_grow {ks : List GoStr} {k : GoStr} (hnd : ks.Nodup) :
    (if k ∈ ks then ks else ks ++ [k]).Nodup := by
  split
  · exact hnd
  · next hmem =>
    exact List.nodup_append.mpr ⟨hnd, List.nodup_singleton k,
      fun a ha hb => hmem ((List.mem_singleton.mp hb) ▸ ha)⟩

theorem WFv_addVal {m : Values} (h : WFv m) {k v : GoStr} (hk : ByteStr k)
    (hv : ByteStr v) : WFv (addVal m k v) := by
  obtain ⟨hnd, hne, hb⟩ := h
  refine ⟨?_, ?_, ?_⟩
  · rw [keysV_addVal]
    exact nodup_keys_grow hnd
  · intro e he
    rcases mem_addVal he with h1 | ⟨vs, _, h1⟩ | h1
    · exact hne e h1
    · rw [h1]; simp
    · rw [h1]; simp
  · intro e he
    rcases mem_addVal he with h1 | ⟨vs, hvs, h1⟩ | h1
    · exact hb e h1
    · rw [h1]
      refine ⟨hk, ?_⟩
      intro w hw
      rcases List.mem_append.mp hw with h2 | h2
      · exact (hb (k, vs) hvs).2 w h2
      · exact (List.mem_singleton.mp h2) ▸ hv
    · rw [h1]
      refine ⟨hk, ?_⟩
      intro w hw
      exact (List.mem_singleton.mp hw) ▸ hv

theorem WFv_setVal {m : Values} (h : WFv m) {k v : GoStr} (hk : ByteStr k)
    (hv : ByteStr v) : WFv (setVal m k v) := by
  obtain ⟨hnd, hne, hb⟩ := h
  refine ⟨?_, ?_, ?_⟩
  · rw [keysV_setVal]
    exact nodup_keys_grow hnd
  · intro e he
    rcases mem_setVal he with h1 | h1
    · exact hne e h1
    · rw [h1]; simp
  · intro e he
    rcases mem_setVal he with h1 | h1
    · exact hb e h1
    · rw [h1]
      refine ⟨hk, ?_⟩
      intro w hw
      exact (List.mem_singleton.mp hw) ▸ hv

theorem WFv_parseSeg {m : Values} (h : WFv m) {seg : GoStr} (hseg : ByteStr seg) :
    WFv (parseSeg m seg) := by
  rw [parseSeg]
  split
  · exact h
  · split
    · exact h
    · cases hk : queryUnescape (cutByte 61 seg).1 with
      | none => exact h
      | some k =>
        cases hv : queryUnescape (cutByte 61 seg).2 with
        | none => simp only [hk, hv]; exact h
        | some v =>
          simp only [hk, hv]
          have hbk : ByteStr k :=
            queryUnescape_byte (fun c hc => hseg c (mem_cutByte_fst hc)) hk
          have hbv : ByteStr v :=
            queryUnescape_byte (fun c hc => hseg c (mem_cutByte_snd hc)) hv
          exact WFv_addVal h hbk hbv

theorem WFv_foldl {segs : List GoStr} (hsegs : ∀ s ∈ segs, ByteStr s) :
    ∀ {m : Values}, WFv m → WFv (List.foldl parseSeg m segs) := by
  induction segs with
  | nil => intro m h; exact h
  | cons s rest ih =>
    intro m h
    rw [List.foldl_cons]
    exact ih (fun x hx => hsegs x (List.mem_cons_of_mem _ hx))
      (WFv_parseSeg h (hsegs s (List.mem_cons_self _ _)))

theorem WFv_parse {q : GoStr} (hq : ByteStr q) : WFv (parseQueryV q) := by
  rw [parseQueryV]
  refine WFv_foldl ?_ ⟨List.nodup_nil, fun e he => absurd he (List.not_mem_nil e),
    fun e he => absurd he (List.not_mem_nil e)⟩
  intro s hs c hc
  rcases mem_splitAmpCore hs hc with h1 | h1
  · exact hq c h1
  · cases h1

/-! ### Helper lemmas: sorting by key -/

/-- Order on entries used by the Encode model. -/
def entryLe (a b : GoStr × List GoStr) : Prop := leB a.1 b.1 = true

theorem leB_total (a b : GoStr) : leB a b = true ∨ leB b a = true := by
  induction a generalizing b with
  | nil => exact Or.inl rfl
  | cons x as ih =>
    cases b with
    | nil => exact Or.inr rfl
    | cons y bs =>
      by_cases hxy : x < y
      · exact Or.inl (by rw [leB, if_pos hxy])
      · by_cases hyx : y < x
        · exact Or.inr (by rw [leB, if_pos hyx])
        · have hx : ¬ y < x := hyx
          rcases ih bs with h | h
          · exact Or.inl (by rw [leB, if_neg hxy, if_neg hyx]; exact h)
          · exact Or.inr (by rw [leB, if_neg hyx, if_neg hxy]; exact h)

theorem chain_insertSorted {e : GoStr × List GoStr} :
    ∀ {l : Values}, List.Chain' entryLe l → List.Chain' entryLe (insertSorted e l) := by
  intro l
  induction l with
  | nil => intro _; simp [insertSorted]
  | cons f rest ih =>
    intro h
    rw [insertSorted]
    split
    · next hle => exact List.chain'_cons.mpr ⟨hle, h⟩
    · next hnle =>
      have hfe : entryLe f e := (leB_total e.1 f.1).resolve_left hnle
      cases rest with
      | nil =>
        rw [insertSorted]
        exact List.chain'_cons.mpr ⟨hfe, List.chain'_singleton e⟩
      | cons g rest2 =>
        have hfg : entryLe f g := (List.chain'_cons.mp h).1
        have htail : List.Chain' entryLe (g :: rest2) := (List.chain'_cons.mp h).2
        rw [insertSorted]
        split
        · next hle2 =>
          exact List.chain'_cons.mpr ⟨hfe, List.chain'_cons.mpr ⟨hle2, htail⟩⟩
        · next hnle2 =>
          have := ih htail
          rw [insertSorted, if_neg hnle2] at this
          exact List.chain'_cons.mpr ⟨hfg, this⟩

theorem chain_sortV (m : Values) : List.Chain' entryLe (sortV m) := by
  induction m with
  | nil => exact List.chain'_nil
  | cons e rest ih => exact chain_insertSorted ih

theorem sortV_eq_of_chain : ∀ {l : Values}, List.Chain' entryLe l → sortV l = l := by
  intro l
  induction l with
  | nil => intro _; rfl
  | cons e rest ih =>
    intro h
    rw [sortV]
    cases rest with
    | nil => rfl
    | cons f rest2 =>
      have hef : entryLe e f := (List.chain'_cons.mp h).1
      rw [ih (List.chain'_cons.mp h).2, insertSorted,
        if_pos (show leB e.1 f.1 = true from hef)]

theorem sortV_idem (m : Values) : sortV (sortV m) = sortV m :=
  sortV_eq_of_chain (chain_sortV m)

theorem insertSorted_perm (e : GoStr × List GoStr) (l : Values) :
    (insertSorted e l).Perm (e :: l) := by
  induction l with
  | nil => exact List.Perm.refl _
  | cons f rest ih =>
    rw [insertSorted]
    split
    · exact List.Perm.refl _
    · exact ((ih.cons f).trans (List.Perm.swap e f rest))

theorem sortV_perm (m : Values) : (sortV m).Perm m := by
  induction m with
  | nil => exact List.Perm.refl _
  | cons e rest ih =>
    rw [sortV]
    exact (insertSorted_perm e (sortV rest)).trans (ih.cons e)

theorem WFv_perm {m1 m2 : Values} (h : m1.Perm m2) (hw : WFv m1) : WFv m2 := by
  obtain ⟨hnd, hne, hb⟩ := hw
  exact ⟨((h.map Prod.fst).nodup_iff).mp hnd,
    fun e he => hne e (h.mem_iff.mpr he),
    fun e he => hb e (h.mem_iff.mpr he)⟩

theorem WFv_sortV {m : Values} (h : WFv m) : WFv (sortV m) :=
  WFv_perm (sortV_perm m).symm h

/-! ### Helper lemmas: parsing an encoded query recovers the sorted map -/

theorem parseSeg_enc (m : Values) (k v : GoStr) (hk : ByteStr k) (hv : ByteStr v) :
    parseSeg m (queryEscape k ++ 61 :: queryEscape v) = addVal m k v := by
  have h59 : 59 ∉ queryEscape k ++ 61 :: queryEscape v := by
    intro hc
    rcases List.mem_append.mp hc with h1 | h1
    · exact (mem_queryEscape h1).2.1 rfl
    · rcases List.mem_cons.mp h1 with h1 | h1
      · exact absurd h1 (by decide)
      · exact (mem_queryEscape h1).2.1 rfl
  have hne : queryEscape k ++ 61 :: queryEscape v ≠ [] := by
    intro hc
    have := (List.append_eq_nil.mp hc).2
    cases this
  have h61 : 61 ∉ queryEscape k := fun hc => (mem_queryEscape hc).2.2 rfl
  have hcut : cutByte 61 (queryEscape k ++ 61 :: queryEscape v) =
      (queryEscape k, queryEscape v) := cutByte_append _ h61
  rw [parseSeg, if_neg h59, if_neg hne]
  simp only [hcut, unescape_escape hk, unescape_escape hv]

theorem foldl_seg_snoc {k : GoStr} (hk : ByteStr k) :
    ∀ (vs : List GoStr), (∀ v ∈ vs, ByteStr v) →
    ∀ (acc : Values) (vs0 : List GoStr), k ∉ keysV acc →
      List.foldl parseSeg (acc ++ [(k, vs0)])
          (vs.map (fun v => queryEscape k ++ 61 :: queryEscape v)) =
        acc ++ [(k, vs0 ++ vs)] := by
  intro vs
  induction vs with
  | nil => intro _ acc vs0 _; simp
  | cons v rest ih =>
    intro hb acc vs0 hacc
    rw [List.map_cons, List.foldl_cons, parseSeg_enc _ k v hk (hb v (List.mem_cons_self _ _)),
      addVal_snoc vs0 v hacc,
      ih (fun w hw => hb w (List.mem_cons_of_mem _ hw)) acc (vs0 ++ [v]) hacc]
    simp [List.append_assoc]

theorem foldl_enc_entry {k : GoStr} {vs : List GoStr} {acc : Values} (hk : ByteStr k)
    (hvs : ∀ v ∈ vs, ByteStr v) (hne : vs ≠ []) (hacc : k ∉ keysV acc) :
    List.foldl parseSeg acc (encodeEntry (k, vs)) = acc ++ [(k, vs)] := by
  match vs, hne with
  | v :: rest, _ =>
    rw [encodeEntry]
    simp only
    rw [List.map_cons, List.foldl_cons,
      parseSeg_enc _ k v hk (hvs v (List.mem_cons_self _ _)), addVal_not_mem v hacc,
      foldl_seg_snoc hk rest (fun w hw => hvs w (List.mem_cons_of_mem _ hw)) acc [v] hacc]
    simp

theorem foldl_enc_all : ∀ {l acc : Values}, (keysV l).Nodup →
    (∀ kk ∈ keysV l, kk ∉ keysV acc) → (∀ e ∈ l, e.2 ≠ []) →
    (∀ e ∈ l, ByteStr e.1 ∧ ∀ v ∈ e.2, ByteStr v) →
    List.foldl parseSeg acc (List.flatMap l encodeEntry) = acc ++ l := by
  intro l
  induction l with
  | nil => intro acc _ _ _ _; simp
  | cons e rest ih =>
    intro acc hnd hdisj hne hb
    match e with
    | (k, vs) =>
      have hkb : ByteStr k := (hb (k, vs) (List.mem_cons_self _ _)).1
      have hvb : ∀ v ∈ vs, ByteStr v := (hb (k, vs) (List.mem_cons_self _ _)).2
      have hvne : vs ≠ [] := hne (k, vs) (List.mem_cons_self _ _)
      have hkacc : k ∉ keysV acc := hdisj k (List.mem_cons_self _ _)
      rw [List.flatMap_cons, List.foldl_append, foldl_enc_entry hkb hvb hvne hkacc,
        ih (List.nodup_cons.mp hnd).2 ?_ (fun x hx => hne x (List.mem_cons_of_mem _ hx))
          (fun x hx => hb x (List.mem_cons_of_mem _ hx))]
      · simp
      · intro kk hkk hc
        have hkeys : keysV (acc ++ [(k, vs)]) = keysV acc ++ [k] := by
          rw [keysV, List.map_append]
          rfl
        rw [hkeys] at hc
        rcases List.mem_append.mp hc with h1 | h1
        · exact hdisj kk (List.mem_cons_of_mem _ hkk) h1
        · have : kk = k := List.mem_singleton.mp h1
          exact (List.nodup_cons.mp hnd).1 (this ▸ hkk)

theorem parse_encode {m : Values} (h : WFv m) : parseQueryV (encodeV m) = sortV m := by
  have hsm : WFv (sortV m) := WFv_sortV h
  rw [encodeV, parseQueryV]
  cases hcase : sortV m with
  | nil => rfl
  | cons e rest =>
    rw [hcase] at hsm
    obtain ⟨hnd, hne, hb⟩ := hsm
    have h38 : ∀ s ∈ List.flatMap (e :: rest) encodeEntry, 38 ∉ s := by
      intro s hs hc
      rcases List.mem_flatMap.mp hs with ⟨ent, hent, hsent⟩
      rw [encodeEntry] at hsent
      rcases List.mem_map.mp hsent with ⟨v, hv, hveq⟩
      rw [← hveq] at hc
      rcases List.mem_append.mp hc with h1 | h1
      · exact (mem_queryEscape h1).1 rfl
      · rcases List.mem_cons.mp h1 with h1 | h1
        · exact absurd h1 (by decide)
        · exact (mem_queryEscape h1).1 rfl
    have hsegsne : List.flatMap (e :: rest) encodeEntry ≠ [] := by
      rw [List.flatMap_cons]
      intro hc
      have h1 : encodeEntry e = [] := (List.append_eq_nil.mp hc).1
      have h2 : e.2 ≠ [] := hne e (List.mem_cons_self _ _)
      rw [encodeEntry, List.map_eq_nil_iff] at h1
      exact h2 h1
    rw [split_join hsegsne h38,
      foldl_enc_all hnd (fun kk _ hc => by simp [keysV] at hc) hne hb]
    simp

/-! ### Helper lemmas: sanitizeURL -/

theorem byteStr_tokenKey : ByteStr tokenKey := by decide

theorem byteStr_REDACTED : ByteStr REDACTED := by decide

theorem sanitize_noRedact {u : URL} (h : valuesGet (parseQueryV u.rawQuery) tokenKey = []) :
    sanitizeURL1 u = u := by
  rw [sanitizeURL1, if_neg]
  rw [h]
  simp

theorem sanitize_redact {u : URL} (h : valuesGet (parseQueryV u.rawQuery) tokenKey ≠ []) :
    sanitizeURL1 u =
      { u with rawQuery := encodeV (setVal (parseQueryV u.rawQuery) tokenKey REDACTED) } := by
  rw [sanitizeURL1, if_pos (List.length_pos.mpr h)]

theorem WFv_redacted {q : GoStr} (hq : ByteStr q) :
    WFv (setVal (parseQueryV q) tokenKey REDACTED) :=
  WFv_setVal (WFv_parse hq) byteStr_tokenKey byteStr_REDACTED

theorem redact_parse {q : GoStr} (hq : ByteStr q) :
    parseQueryV (encodeV (setVal (parseQueryV q) tokenKey REDACTED)) =
      sortV (setVal (parseQueryV q) tokenKey REDACTED) :=
  parse_encode (WFv_redacted hq)

theorem redact_getVals_token {q : GoStr} (hq : ByteStr q) :
    getVals (parseQueryV (encodeV (setVal (parseQueryV q) tokenKey REDACTED))) tokenKey =
      [REDACTED] := by
  rw [redact_parse hq,
    getVals_perm (sortV_perm _) (WFv_sortV (WFv_redacted hq)).1 tokenKey]
  exact getVals_setVal_self _ _ _

theorem redact_getVals_other {q : GoStr} (hq : ByteStr q) {k : GoStr} (hk : k ≠ tokenKey) :
    getVals (parseQueryV (encodeV (setVal (parseQueryV q) tokenKey REDACTED))) k =
      getVals (parseQueryV q) k := by
  rw [redact_parse hq, getVals_perm (sortV_perm _) (WFv_sortV (WFv_redacted hq)).1 k,
    getVals_setVal_other _ hk]

theorem sanitized_token_vals {u : URL} (hb : ByteStr u.rawQuery)
    (h : valuesGet (parseQueryV u.rawQuery) tokenKey ≠ []) :
    getVals (parseQueryV (sanitizeURL1 u).rawQuery) tokenKey = [REDACTED] := by
  rw [sanitize_redact h]
  exact redact_getVals_token hb

theorem sanitized_other_vals {u : URL} (hb : ByteStr u.rawQuery) {k : GoStr}
    (hk : k ≠ tokenKey) :
    getVals (parseQueryV (sanitizeURL1 u).rawQuery) k =
      getVals (parseQueryV u.rawQuery) k := by
  by_cases h : valuesGet (parseQueryV u.rawQuery) tokenKey = []
  · rw [sanitize_noRedact h]
  · rw [sanitize_redact h]
    exact redact_getVals_other hb hk

theorem sanitize1_idem {u : URL} (hb : ByteStr u.rawQuery) :
    sanitizeURL1 (sanitizeURL1 u) = sanitizeURL1 u := by
  by_cases h : valuesGet (parseQueryV u.rawQuery) tokenKey = []
  · rw [sanitize_noRedact h, sanitize_noRedact h]
  · rw [sanitize_redact h]
    have hwm1 : WFv (setVal (parseQueryV u.rawQuery) tokenKey REDACTED) := WFv_redacted hb
    have hparse : parseQueryV
        ({ u with rawQuery :=
            encodeV (setVal (parseQueryV u.rawQuery) tokenKey REDACTED) } : URL).rawQuery =
        sortV (setVal (parseQueryV u.rawQuery) tokenKey REDACTED) :=
      parse_encode hwm1
    have hget : getVals (parseQueryV
        ({ u with rawQuery :=
            encodeV (setVal (parseQueryV u.rawQuery) tokenKey REDACTED) } : URL).rawQuery)
        tokenKey = [REDACTED] := by
      rw [hparse, getVals_perm (sortV_perm _) (WFv_sortV hwm1).1 tokenKey]
      exact getVals_setVal_self _ _ _
    have hvg : valuesGet (parseQueryV
        ({ u with rawQuery :=
            encodeV (setVal (parseQueryV u.rawQuery) tokenKey REDACTED) } : URL).rawQuery)
        tokenKey ≠ [] := by
      rw [valuesGet, hget]
      decide
    have hset : setVal (parseQueryV
        ({ u with rawQuery :=
            encodeV (setVal (parseQueryV u.rawQuery) tokenKey REDACTED) } : URL).rawQuery)
        tokenKey REDACTED = parseQueryV
        ({ u with rawQuery :=
            encodeV (setVal (parseQueryV u.rawQuery) tokenKey REDACTED) } : URL).rawQuery :=
      setVal_self (by rw [hparse]; exact (WFv_sortV hwm1).1) hget
    rw [sanitize_redact hvg, hset, hparse, encodeV, encodeV, sortV_idem]

/-! ### Concrete inputs used by the claim theorems -/

/-- A URL whose first token value is empty while a later token value is secret. -/
def cexURL1 : URL :=
  { scheme := strB "https", host := strB "api.example.com", path := strB "/x",
    forceQuery := false, rawQuery := strB "token=&token=SECRET" }

/-- A URL with two non-empty token values. -/
def wURL1 : URL :=
  { scheme := strB "https", host := strB "api.example.com", path := strB "/x",
    forceQuery := false, rawQuery := strB "token=ABC&token=XYZ" }

/-- The URL of the rendering example of the spec. -/
def exampleURL : URL :=
  { scheme := strB "https", host := strB "api.example.com", path := strB "/x",
    forceQuery := false, rawQuery := strB "token=ABC" }

/-- The ErrorResponse of the rendering example of the spec: method GET, URL
https://api.example.com/x?token=ABC, status 401, Err with code Unauthenticated. -/
def exampleER : ErrorResponse :=
  NewErrorResponse
    (some { request := some { method := strB "GET", url := some exampleURL },
            statusCode := 401 })
    (some (NewErr Unauthenticated []))

/-- A URL with a non-empty token parameter and nothing else. -/
def claim4URL : URL :=
  { scheme := [], host := [], path := [], forceQuery := false,
    rawQuery := strB "token=ABC" }

/-- A URL with no token parameter. -/
def w4URL : URL :=
  { scheme := [], host := [], path := [], forceQuery := false, rawQuery := strB "a=1" }

/-- A URL with a token parameter and one other parameter. -/
def w7URL : URL :=
  { scheme := strB "https", host := strB "api.example.com", path := strB "/x",
    forceQuery := false, rawQuery := strB "token=ABC&a=1" }

/-- A URL with two token values and one other parameter. -/
def w8URL : URL :=
  { scheme := [], host := [], path := [], forceQuery := false,
    rawQuery := strB "token=A&token=B&x=1" }

/-- A URL with an uppercase Token key, a lowercase token key and an escaped value. -/
def w10URL : URL :=
  { scheme := [], host := [], path := [], forceQuery := false,
    rawQuery := strB "Token=abc&token=x&a=%41" }

/-! ### The claims -/

/-- C1 (counterexample): the claim says that after sanitization no token value
other than REDACTED remains in the query, quantified over all URLs including
those with an empty first token value.  On the URL with raw query
token=&token=SECRET the code performs no redaction (Get returns the empty
first value), so the value SECRET survives sanitization. -/
theorem claim1_counterexample :
    strB "SECRET" ∈ getVals (parseQueryV (sanitizeURL1 cexURL1).rawQuery) tokenKey ∧
      strB "SECRET" ≠ REDACTED := by decide

/-- C1 (amended): when the first token value of the query is non-empty, every
token value in the sanitized query is REDACTED; when the token parameter is
absent or its first value is empty, the URL is returned unchanged (so token
values other than REDACTED may remain). -/
theorem claim1_amended (u : URL) (hb : ByteStr u.rawQuery) :
    (valuesGet (parseQueryV u.rawQuery) tokenKey ≠ [] →
      (getVals (parseQueryV (sanitizeURL1 u).rawQuery) tokenKey).filter
        (fun v => v ≠ REDACTED) = []) ∧
    (valuesGet (parseQueryV u.rawQuery) tokenKey = [] → sanitizeURL1 u = u) := by
  refine ⟨fun h => ?_, fun h => sanitize_noRedact h⟩
  rw [sanitized_token_vals hb h]
  simp

/-- C1 witness: the amended claim applied to the two-token URL and to the
empty-first-value URL. -/
theorem claim1_witness :
    (getVals (parseQueryV (sanitizeURL1 wURL1).rawQuery) tokenKey).filter
        (fun v => v ≠ REDACTED) = [] ∧
      sanitizeURL1 cexURL1 = cexURL1 :=
  ⟨(claim1_amended wURL1 (by decide)).1 (by decide),
    (claim1_amended cexURL1 (by decide)).2 (by decide)⟩

/-- C2 (code bug): rendering the example ErrorResponse produces
GET https://api.example.com/x?token=REDACTED: 401 followed by the fmt
rendering of the method value r.Error - a function pointer address - instead
of the wrapped Err rendering, so the output never contains the textual
representation of Unauthenticated (for any address free of the byte U, which
fmt addresses are: 0x plus lowercase hex digits). -/
theorem claim2_render_bug (addr : GoStr) (h : 85 ∉ addr) :
    errorResponseError addr exampleER =
      some (strB "GET https://api.example.com/x?token=REDACTED: 401 " ++ addr) ∧
    ¬ strB "Unauthenticated request" <:+:
        strB "GET https://api.example.com/x?token=REDACTED: 401 " ++ addr := by
  constructor
  · rfl
  · intro hinf
    have h85 : (85 : Nat) ∈
        strB "GET https://api.example.com/x?token=REDACTED: 401 " ++ addr :=
      hinf.subset (by decide)
    rcases List.mem_append.mp h85 with hm | hm
    · exact absurd hm (by decide)
    · exact h hm

/-- C2 witness: the rendering theorem at a representative pointer address. -/
theorem claim2_witness :
    errorResponseError (strB "0x4a2f10") exampleER =
      some (strB "GET https://api.example.com/x?token=REDACTED: 401 " ++
        strB "0x4a2f10") ∧
    ¬ strB "Unauthenticated request" <:+:
        strB "GET https://api.example.com/x?token=REDACTED: 401 " ++ strB "0x4a2f10" :=
  claim2_render_bug (strB "0x4a2f10") (by decide)

/-- C3 (counterexample): the claim says each of the six defined variants gets
its own canonical message while only other values get the fallback; but the
switch in Code.String has no case for Success, so Success is mapped to the
same fallback string as an undefined code such as 6. -/
theorem claim3_counterexample :
    codeString Success = strB "FIXME: this should be a helpful message" ∧
      codeString Success = codeString 6 := by decide

/-- C3 (amended): the description function is total; each of the five failure
variants returns its own canonical message; Success and every numeric value
outside the six declared constants return the fixed fallback string; the
result is never empty. -/
theorem claim3_amended :
    codeString InvalidToken = strB "Invalid or expired token" ∧
    codeString Unauthenticated = strB "Unauthenticated request" ∧
    codeString BadAuthenticationData = strB "Bad authentication data" ∧
    codeString BadInputData = strB "Bad input data" ∧
    codeString Internal =
      strB "Internal error. Please submit a query to the support team" ∧
    (∀ c : Code, c = Success ∨ 6 ≤ c →
      codeString c = strB "FIXME: this should be a helpful message") ∧
    (∀ c : Code, codeString c ≠ []) := by
  refine ⟨by decide, by decide, by decide, by decide, by decide, ?_, ?_⟩
  · intro c hc
    rcases hc with h | h
    · subst h; decide
    · rw [codeString, if_neg (fun hc => absurd (hc ▸ h) (by decide)),
        if_neg (fun hc => absurd (hc ▸ h) (by decide)),
        if_neg (fun hc => absurd (hc ▸ h) (by decide)),
        if_neg (fun hc => absurd (hc ▸ h) (by decide)),
        if_neg (fun hc => absurd (hc ▸ h) (by decide))]
  · intro c
    rw [codeString]
    split
    · decide
    · split
      · decide
      · split
        · decide
        · split
          · decide
          · split
            · decide
            · decide

/-- C3 witness: the amended claim applied to the undefined code 9 and to
Unauthenticated. -/
theorem claim3_witness :
    codeString 9 = strB "FIXME: this should be a helpful message" ∧
      codeString Unauthenticated ≠ [] :=
  ⟨claim3_amended.2.2.2.2.2.1 9 (Or.inr (by decide)),
    claim3_amended.2.2.2.2.2.2 Unauthenticated⟩

/-- C4 (counterexample): the claim says the input URL, including its raw query
string, is the same after the call as before.  Go sanitizeURL assigns
uri.RawQuery in place and returns the argument pointer, so the post-call state
of the caller-retained URL is the returned value; on a URL with raw query
token=ABC that value differs from the pre-call state. -/
theorem claim4_counterexample :
    sanitizeURL1 claim4URL ≠ claim4URL ∧
      (sanitizeURL1 claim4URL).rawQuery = strB "token=REDACTED" := by decide

/-- C4 (amended): the sanitizer works on a private copy of the query
multimap - Query() is a fresh parse of RawQuery, and Set operates on that
copy - and it preserves every URL field except rawQuery; but it mutates the
caller-retained URL in place: when the first token value is non-empty, the
caller URL rawQuery is overwritten with the re-encoded redacted query (the
returned pointer is the argument itself); when no redaction occurs the URL is
entirely unchanged. -/
theorem claim4_amended (u : URL) :
    (sanitizeURL1 u).scheme = u.scheme ∧ (sanitizeURL1 u).host = u.host ∧
    (sanitizeURL1 u).path = u.path ∧ (sanitizeURL1 u).forceQuery = u.forceQuery ∧
    (valuesGet (parseQueryV u.rawQuery) tokenKey = [] → sanitizeURL1 u = u) := by
  refine ⟨?_, ?_, ?_, ?_, fun h => sanitize_noRedact h⟩ <;>
    (rw [sanitizeURL1]; split <;> rfl)

/-- C4 witness: fields other than rawQuery are preserved on the token URL, and
a URL without a token parameter is returned unchanged. -/
theorem claim4_witness :
    (sanitizeURL1 claim4URL).scheme = claim4URL.scheme ∧ sanitizeURL1 w4URL = w4URL :=
  ⟨(claim4_amended claim4URL).1, (claim4_amended w4URL).2.2.2.2 (by decide)⟩

/-- C5 (confirmed): NewErr always succeeds, preserves the code, and uses the
canonical description when the message is empty and the message verbatim
otherwise. -/
theorem claim5_newErr (c : Code) (msg : GoStr) :
    (NewErr c msg).code = c ∧
    (msg = [] → (NewErr c msg).message = codeString c) ∧
    (msg ≠ [] → (NewErr c msg).message = msg) := by
  refine ⟨?_, fun h => ?_, fun h => ?_⟩ <;> rw [NewErr]
  · split <;> rfl
  · rw [if_pos h]
  · rw [if_neg h]

/-- C5 witness: the constructor contract at Unauthenticated with the empty and
a custom message. -/
theorem claim5_witness :
    (NewErr Unauthenticated []).message = codeString Unauthenticated ∧
    (NewErr Unauthenticated (strB "custom")).message = strB "custom" ∧
    (NewErr BadInputData (strB "custom")).code = BadInputData :=
  ⟨(claim5_newErr Unauthenticated []).2.1 rfl,
    (claim5_newErr Unauthenticated (strB "custom")).2.2 (by decide),
    (claim5_newErr BadInputData (strB "custom")).1⟩

/-- C6 (confirmed): Err.Error renders exactly the code numeric value, a colon
and a space, and the canonical description of the code; the result does not
depend on the stored message. -/
theorem claim6_errRender (msg1 msg2 : GoStr) (c : Code) :
    errRender { message := msg1, code := c } = natDec c ++ 58 :: 32 :: codeString c ∧
    errRender { message := msg1, code := c } = errRender { message := msg2, code := c } :=
  ⟨rfl, rfl⟩

/-- C7 (confirmed): sanitizeURL is idempotent, on nil and on every URL (Go
strings are byte strings, which is the hypothesis on rawQuery). -/
theorem claim7_sanitize_idem (ou : Option URL)
    (hb : ∀ u, ou = some u → ByteStr u.rawQuery) :
    sanitizeURL (sanitizeURL ou) = sanitizeURL ou := by
  cases ou with
  | none => rfl
  | some u =>
    show some (sanitizeURL1 (sanitizeURL1 u)) = some (sanitizeURL1 u)
    rw [sanitize1_idem (hb u rfl)]

/-- C7 witness: idempotence at nil and at a URL carrying a token and another
parameter. -/
theorem claim7_witness :
    sanitizeURL (sanitizeURL (some w7URL)) = sanitizeURL (some w7URL) ∧
      sanitizeURL (sanitizeURL none) = sanitizeURL none :=
  ⟨claim7_sanitize_idem (some w7URL) (fun u h => by cases h; decide),
    claim7_sanitize_idem none (fun u h => by cases h)⟩

/-- C8 (confirmed): when the first token value is non-empty, the sanitized
query holds exactly one token parameter whose single value is REDACTED, even
when the input carried several token values. -/
theorem claim8_token_collapsed (u : URL) (hb : ByteStr u.rawQuery)
    (h : valuesGet (parseQueryV u.rawQuery) tokenKey ≠ []) :
    getVals (parseQueryV (sanitizeURL1 u).rawQuery) tokenKey = [REDACTED] :=
  sanitized_token_vals hb h

/-- C8 witness: the collapse on a URL with token values A and B. -/
theorem claim8_witness :
    getVals (parseQueryV (sanitizeURL1 w8URL).rawQuery) tokenKey = [REDACTED] :=
  claim8_token_collapsed w8URL (by decide) (by decide)

/-- C9 (confirmed): when the query contains the key token but its first value
is empty, sanitizeURL performs no redaction and no re-encoding: the returned
URL is the input, byte for byte, even if a later token value is non-empty. -/
theorem claim9_empty_first_token_noop (u : URL)
    (_hkey : tokenKey ∈ keysV (parseQueryV u.rawQuery))
    (hempty : valuesGet (parseQueryV u.rawQuery) tokenKey = []) :
    sanitizeURL1 u = u :=
  sanitize_noRedact hempty

/-- C9 witness: the no-op on the URL with raw query token=&token=SECRET. -/
theorem claim9_witness : sanitizeURL1 cexURL1 = cexURL1 :=
  claim9_empty_first_token_noop cexURL1 (by decide) (by decide)

/-- C10 (confirmed): only the parameter named exactly token (lowercase) can
change; the decoded values of every query parameter under any other key are
preserved by sanitization. -/
theorem claim10_other_keys_preserved (u : URL) (hb : ByteStr u.rawQuery)
    (k : GoStr) (hk : k ≠ tokenKey) :
    getVals (parseQueryV (sanitizeURL1 u).rawQuery) k =
      getVals (parseQueryV u.rawQuery) k :=
  sanitized_other_vals hb hk

/-- C10 witness: the uppercase Token key is preserved while the lowercase
token key is redacted. -/
theorem claim10_witness :
    getVals (parseQueryV (sanitizeURL1 w10URL).rawQuery) (strB "Token") =
      getVals (parseQueryV w10URL.rawQuery) (strB "Token") :=
  claim10_other_keys_preserved w10URL (by decide) (strB "Token") (by decide)

end Codes
